import Mathlib

/-!
# Verification of `serde-view`

A shallow embedding of the `serde-view` crate: a library that serializes a
caller-selected subset of a record's fields, the selection made at run time.

The embedding follows `src/lib.rs` (trait `ViewFields`, error type,
`ViewContext` with its builder operations, `View::as_view`) and the field
enumeration code generated by the `View` derive macro
(`serde_view_macros/src/lib.rs`).  The filtering serialization adapter lives
in the crate's `ser` module, whose source is not part of the tree; it is
modelled from the specification's algorithm (walk the record's fields in
declared order, include a field iff the selection is empty or contains its
variant, delegate value encoding unchanged).
-/

namespace SerdeView

/-- A field enumeration for one record type: `n` fields, each with a
canonical name string attached, in the record's declared order.  This is the
shape of the enum emitted by the `View` derive macro (one variant per named
struct field, `as_str` returning the field's declared name). -/
structure FieldEnum where
  n : Nat
  names : Fin n → String

/-- The single error kind of the crate: `Error::UnknownField(String)`. -/
inductive Error where
  | UnknownField : String → Error
deriving DecidableEq, Repr

/-- `ViewFields::as_str`: total, returns the canonical name of a variant. -/
def as_str (E : FieldEnum) (v : Fin E.n) : String :=
  E.names v

/-- `ViewFields::from_str` as generated by the derive macro: a `match` on
the name against each field's declared name in declared order; the fallback
arm returns `Error::UnknownField` carrying the offending string. -/
def from_str (E : FieldEnum) (s : String) : Except Error (Fin E.n) :=
  match (List.finRange E.n).find? (fun i => E.names i == s) with
  | some i => .ok i
  | none => .error (.UnknownField s)

/-- The `iter.map(f).collect::<Result<HashSet<_>>>()` pattern used by
`from_str_iter` and by the selection builders: apply `g` to each element in
order, short-circuiting on the first error, collecting successes into a
set. -/
def collectSet {α β : Type} [DecidableEq β] (g : α → Except Error β) :
    List α → Except Error (Finset β)
  | [] => .ok ∅
  | a :: rest => do
    let v ← g a
    let vs ← collectSet g rest
    pure (insert v vs)

/-- `ViewFields::from_str_iter`:
`names.into_iter().map(Self::from_str).collect::<Result<HashSet<_>>>()`. -/
def from_str_iter (E : FieldEnum) (l : List String) : Except Error (Finset (Fin E.n)) :=
  collectSet (from_str E) l

/-- Rust's `str::split(',')`: split on every comma, keeping empty pieces;
splitting the empty string yields one empty piece. -/
def str_split (s : String) (c : Char) : List String :=
  (s.toList.splitOn c).map String.mk

/-- `ViewFields::from_str_split`: `Self::from_str_iter(names.split(','))`. -/
def from_str_split (E : FieldEnum) (names : String) : Except Error (Finset (Fin E.n)) :=
  from_str_iter E (str_split names ',')

/-- An argument acceptable where a field is expected (`impl IntoField`):
either an already-typed variant or a string name. -/
inductive FieldLike (E : FieldEnum) where
  | variant : Fin E.n → FieldLike E
  | name : String → FieldLike E

/-- `IntoField::into_field`: a typed variant resolves to itself; a string is
resolved through `ViewFields::from_str`. -/
def into_field {E : FieldEnum} : FieldLike E → Except Error (Fin E.n)
  | .variant v => .ok v
  | .name s => from_str E s

/-- `ViewContext<'v, T>`: a shared borrow of the record (modelled as the
record's field-indexed values, already encoded by the host serialization
framework) together with the owned selection `fields : HashSet<T::Fields>`. -/
structure ViewContext (E : FieldEnum) (V : Type) where
  inner : Fin E.n → V
  fields : Finset (Fin E.n)

/-- `View::as_view`: wrap the record with an empty (default) selection. -/
def as_view {E : FieldEnum} {V : Type} (val : Fin E.n → V) : ViewContext E V :=
  ⟨val, ∅⟩

/-- The `collect::<Result<HashSet<T::Fields>>>()` step shared by
`with_fields` and `add_fields`: resolve every element, short-circuiting on
the first error, collecting successes into a set. -/
def resolve_all {E : FieldEnum} (fs : List (FieldLike E)) : Except Error (Finset (Fin E.n)) :=
  collectSet into_field fs

/-- `ViewContext::with_fields`: resolve all inputs, then replace the
selection wholesale with the resolved set. -/
def with_fields {E : FieldEnum} {V : Type} (ctx : ViewContext E V)
    (fs : List (FieldLike E)) : Except Error (ViewContext E V) := do
  let s ← resolve_all fs
  pure { ctx with fields := s }

/-- `ViewContext::add_fields`: resolve all inputs, then extend (union) the
existing selection with the resolved set. -/
def add_fields {E : FieldEnum} {V : Type} (ctx : ViewContext E V)
    (fs : List (FieldLike E)) : Except Error (ViewContext E V) := do
  let s ← resolve_all fs
  pure { ctx with fields := ctx.fields ∪ s }

/-- `ViewContext::add_field`: resolve the single input, then insert it into
the existing selection. -/
def add_field {E : FieldEnum} {V : Type} (ctx : ViewContext E V)
    (f : FieldLike E) : Except Error (ViewContext E V) := do
  let v ← into_field f
  pure { ctx with fields := insert v ctx.fields }

/-- Modelled from the spec: the record's own unfiltered serialization (the
host framework walking the record), absent from `src/` together with the
`ser` module — emit every field's name→value pair in declared order. -/
def serializeRecord (E : FieldEnum) {V : Type} (val : Fin E.n → V) : List (String × V) :=
  (List.finRange E.n).map (fun i => (E.names i, val i))

/-- Modelled from the spec: the filtering serialization adapter of the
crate's `ser` module, absent from `src/` — walk the record's fields in
declared order and emit a field's name→value pair iff the selection is
empty (the "select all" sentinel) or contains the field's variant, the
value encoded exactly as the unfiltered serialization encodes it. -/
def serializeView (E : FieldEnum) {V : Type} (val : Fin E.n → V)
    (sel : Finset (Fin E.n)) : List (String × V) :=
  (List.finRange E.n).filterMap (fun i =>
    if sel = ∅ ∨ i ∈ sel then some (E.names i, val i) else none)

/-- Serializing a `ViewContext` applies the filtering adapter to the
borrowed record and the owned selection. -/
def serializeContext {E : FieldEnum} {V : Type} (ctx : ViewContext E V) : List (String × V) :=
  serializeView E ctx.inner ctx.fields

/-- The field enumeration of the test record `MyRecordDerived`
(`some_string`, `flag`, `optional_flag`). -/
abbrev myFields : FieldEnum :=
  ⟨3, fun i => ["some_string", "flag", "optional_flag"].get i⟩

/-- A concrete record value for the test enumeration, fields encoded as
naturals. -/
def myVal : Fin myFields.n → Nat :=
  fun i => i.val

/-- A concrete view context over `myFields` with a non-empty prior
selection. -/
def myCtx : ViewContext myFields Nat :=
  ⟨myVal, {0}⟩

/-- A two-field enumeration whose fields are named `a` and `b`. -/
abbrev abFields : FieldEnum :=
  ⟨2, fun i => ["a", "b"].get i⟩

/-- A concrete view context over `abFields`. -/
def abCtx : ViewContext abFields Nat :=
  ⟨fun i => i.val, ∅⟩

/-- Decidable equality for `Except` results, used to evaluate the fallible
operations on concrete inputs. -/
instance {ε α : Type _} [DecidableEq ε] [DecidableEq α] : DecidableEq (Except ε α) := fun x y =>
  match x, y with
  | .error u, .error v => if h : u = v then isTrue (by rw [h]) else isFalse (by simp [h])
  | .ok u, .ok v => if h : u = v then isTrue (by rw [h]) else isFalse (by simp [h])
  | .error _, .ok _ => isFalse (by simp)
  | .ok _, .error _ => isFalse (by simp)

/-! ## Helper lemmas -/

theorem except_error_bind {ε α β : Type _} (e : ε) (f : α → Except ε β) :
    (Except.error e >>= f) = Except.error e :=
  rfl

theorem except_ok_bind {ε α β : Type _} (a : α) (f : α → Except ε β) :
    (Except.ok a >>= f) = f a :=
  rfl

theorem from_str_of_name (E : FieldEnum) (hinj : Function.Injective E.names)
    {i : Fin E.n} {s : String} (h : E.names i = s) :
    from_str E s = .ok i := by
  unfold from_str
  rcases hfind : (List.finRange E.n).find? (fun j => E.names j == s) with _ | j
  · exfalso
    have hni := List.find?_eq_none.mp hfind i (List.mem_finRange i)
    simp [h] at hni
  · have hj : E.names j = s := by
      have := List.find?_some hfind
      simpa using this
    have hji : j = i := hinj (by rw [hj, h])
    rw [hji]

theorem from_str_of_not_name (E : FieldEnum) {s : String} (h : ∀ i, E.names i ≠ s) :
    from_str E s = .error (.UnknownField s) := by
  unfold from_str
  have hfind : (List.finRange E.n).find? (fun j => E.names j == s) = none := by
    apply List.find?_eq_none.mpr
    intro j _
    simp [h j]
  rw [hfind]

theorem from_str_error_shape (E : FieldEnum) {s : String} {e : Error}
    (h : from_str E s = .error e) : e = .UnknownField s := by
  unfold from_str at h
  rcases hfind : (List.finRange E.n).find? (fun j => E.names j == s) with _ | j
  · rw [hfind] at h
    injection h with h
    exact h.symm
  · rw [hfind] at h
    exact absurd h (by simp)

theorem collectSet_append_error {α β : Type} [DecidableEq β] (g : α → Except Error β)
    (l₁ l₂ : List α) (a : α) (e : Error)
    (hall : ∀ x ∈ l₁, ∃ v, g x = .ok v) (herr : g a = .error e) :
    collectSet g (l₁ ++ a :: l₂) = .error e := by
  induction l₁ with
  | nil =>
    simp only [List.nil_append, collectSet]
    rw [herr, except_error_bind]
  | cons x rest ih =>
    obtain ⟨v, hv⟩ := hall x (by simp)
    simp only [List.cons_append, collectSet, List.append_eq]
    rw [hv, except_ok_bind, ih (fun y hy => hall y (by simp [hy])), except_error_bind]

theorem collectSet_ok_of_all_ok {α β : Type} [DecidableEq β] (g : α → Except Error β)
    (l : List α) (hall : ∀ x ∈ l, ∃ v, g x = .ok v) :
    ∃ vs, collectSet g l = .ok vs ∧ ∀ v, (v ∈ vs ↔ ∃ x ∈ l, g x = .ok v) := by
  induction l with
  | nil => exact ⟨∅, rfl, by simp⟩
  | cons x rest ih =>
    obtain ⟨v, hv⟩ := hall x (by simp)
    obtain ⟨vs, hvs, hmem⟩ := ih (fun y hy => hall y (by simp [hy]))
    refine ⟨insert v vs, ?_, ?_⟩
    · simp only [collectSet]
      rw [hv, except_ok_bind, hvs, except_ok_bind]
      rfl
    · intro w
      simp only [Finset.mem_insert, hmem, List.mem_cons]
      constructor
      · rintro (rfl | ⟨y, hy, hgy⟩)
        · exact ⟨x, Or.inl rfl, hv⟩
        · exact ⟨y, Or.inr hy, hgy⟩
      · rintro ⟨y, rfl | hy, hgy⟩
        · rw [hv] at hgy
          injection hgy with hgy
          exact Or.inl hgy.symm
        · exact Or.inr ⟨y, hy, hgy⟩

theorem collectSet_error_decomp {α β : Type} [DecidableEq β] (g : α → Except Error β)
    (l : List α) (e : Error) (h : collectSet g l = .error e) :
    ∃ l₁ a l₂, l = l₁ ++ a :: l₂ ∧ g a = .error e ∧ ∀ x ∈ l₁, ∃ v, g x = .ok v := by
  induction l with
  | nil => exact absurd h (by simp [collectSet])
  | cons x rest ih =>
    rcases hx : g x with e' | v
    · simp only [collectSet] at h
      rw [hx, except_error_bind] at h
      injection h with h
      exact ⟨[], x, rest, rfl, by rw [hx, h], by simp⟩
    · simp only [collectSet] at h
      rw [hx, except_ok_bind] at h
      rcases hrest : collectSet g rest with e'' | vs
      · rw [hrest, except_error_bind] at h
        injection h with h
        obtain ⟨l₁, a, l₂, hl, ha, hall⟩ := ih (by rw [hrest, h])
        refine ⟨x :: l₁, a, l₂, by simp [hl], ha, ?_⟩
        intro y hy
        rcases List.mem_cons.mp hy with rfl | hy'
        · exact ⟨v, hx⟩
        · exact hall y hy'
      · rw [hrest] at h
        exact absurd h (by simp [except_ok_bind])

theorem collectSet_ok_mem {α β : Type} [DecidableEq β] (g : α → Except Error β)
    (l : List α) (vs : Finset β) (h : collectSet g l = .ok vs) :
    ∀ v, (v ∈ vs ↔ ∃ x ∈ l, g x = .ok v) := by
  induction l generalizing vs with
  | nil =>
    have h2 : Except.ok (∅ : Finset β) = Except.ok vs := h
    injection h2 with h2
    subst h2
    simp
  | cons x rest ih =>
    rcases hx : g x with e | v
    · simp only [collectSet] at h
      rw [hx, except_error_bind] at h
      exact absurd h (by simp)
    · simp only [collectSet] at h
      rw [hx, except_ok_bind] at h
      rcases hrest : collectSet g rest with e | ws
      · rw [hrest, except_error_bind] at h
        exact absurd h (by simp)
      · rw [hrest, except_ok_bind] at h
        have h2 : Except.ok (insert v ws) = Except.ok vs := h
        injection h2 with h2
        subst h2
        intro w
        simp only [Finset.mem_insert, ih ws hrest, List.mem_cons]
        constructor
        · rintro (rfl | ⟨y, hy, hgy⟩)
          · exact ⟨x, Or.inl rfl, hx⟩
          · exact ⟨y, Or.inr hy, hgy⟩
        · rintro ⟨y, rfl | hy, hgy⟩
          · rw [hx] at hgy
            injection hgy with hgy
            exact Or.inl hgy.symm
          · exact Or.inr ⟨y, hy, hgy⟩

theorem collectSet_pair {α β : Type} [DecidableEq β] (g : α → Except Error β)
    {x y : α} {u v : β} (hx : g x = .ok u) (hy : g y = .ok v) :
    collectSet g [x, y] = .ok {u, v} := by
  simp only [collectSet]
  rw [hx, except_ok_bind, hy, except_ok_bind]
  simp only [except_ok_bind]
  rw [show (pure (insert v ∅) : Except Error (Finset β)) = .ok (insert v ∅) from rfl,
    except_ok_bind]
  rw [show insert v (∅ : Finset β) = {v} from rfl]
  rfl

theorem filterMap_guard_eq_filter_map {α β : Type _} (l : List α) (p : α → Prop)
    [DecidablePred p] (f : α → β) :
    (l.filterMap fun a => if p a then some (f a) else none)
      = (l.filter fun a => decide (p a)).map f := by
  induction l with
  | nil => simp
  | cons a rest ih =>
    by_cases h : p a <;> simp [List.filterMap_cons, List.filter_cons, h, ih]

theorem filterMap_some_eq_map {α β : Type _} (l : List α) (f : α → β) :
    (l.filterMap fun a => some (f a)) = l.map f := by
  induction l with
  | nil => rfl
  | cons a rest ih => simp [List.filterMap_cons, ih]

theorem serializeView_empty_eq (E : FieldEnum) {V : Type} (val : Fin E.n → V) :
    serializeView E val ∅ = serializeRecord E val := by
  unfold serializeView serializeRecord
  simp
  exact filterMap_some_eq_map _ _

theorem serializeView_nonempty_eq (E : FieldEnum) {V : Type} (val : Fin E.n → V)
    (sel : Finset (Fin E.n)) (hne : sel ≠ ∅) :
    serializeView E val sel
      = ((List.finRange E.n).filter fun i => decide (i ∈ sel)).map
          (fun i => (E.names i, val i)) := by
  unfold serializeView
  rw [filterMap_guard_eq_filter_map]
  congr 1
  apply List.filter_congr
  intro i _
  simp [hne]

theorem serializeView_ne_nil (E : FieldEnum) {V : Type} (val : Fin E.n → V)
    (sel : Finset (Fin E.n)) (hn : 0 < E.n) :
    serializeView E val sel ≠ [] := by
  rcases eq_or_ne sel ∅ with rfl | hne
  · rw [serializeView_empty_eq]
    unfold serializeRecord
    intro h
    have hl := congrArg List.length h
    simp at hl
    omega
  · obtain ⟨v, hv⟩ := Finset.nonempty_iff_ne_empty.mpr hne
    apply List.ne_nil_of_mem (a := (E.names v, val v))
    unfold serializeView
    rw [List.mem_filterMap]
    exact ⟨v, List.mem_finRange v, by rw [if_pos (Or.inr hv)]⟩

/-! ## Claim theorems -/

/-- C1: serializing the view context obtained from `as_view()` with no field
narrowing (empty selection) produces exactly the same serialized document as
serializing the record directly — same fields, same order, same values; the
empty selection means "emit all fields", not "emit nothing". -/
theorem as_view_serializes_all (E : FieldEnum) {V : Type} (val : Fin E.n → V) :
    serializeContext (as_view val) = serializeRecord E val :=
  serializeView_empty_eq E val

/-- C2: for a non-empty selection, the filtered document is a subsequence of
the unfiltered one (so every included field's value is encoded identically
and order is the declared field order), its keys are exactly the names of
the selected fields in declared order, and the key set equals the image of
`name_of` over the selection — no extra, no missing keys. -/
theorem filtered_doc_matches_selection (E : FieldEnum) {V : Type} (val : Fin E.n → V)
    (sel : Finset (Fin E.n)) (hne : sel ≠ ∅) :
    (serializeView E val sel).Sublist (serializeRecord E val) ∧
    (serializeView E val sel).map Prod.fst
      = ((List.finRange E.n).filter fun i => decide (i ∈ sel)).map E.names ∧
    ((serializeView E val sel).map Prod.fst).toFinset = sel.image E.names := by
  refine ⟨?_, ?_, ?_⟩
  · rw [serializeView_nonempty_eq E val sel hne]
    unfold serializeRecord
    exact (List.filter_sublist _).map _
  · rw [serializeView_nonempty_eq E val sel hne, List.map_map]
    rfl
  · rw [serializeView_nonempty_eq E val sel hne, List.map_map]
    ext x
    simp [Function.comp, List.mem_filter]

/-- Witness for C2 at the test enumeration with selection `{flag}`. -/
theorem filtered_doc_matches_selection_witness :
    (serializeView myFields myVal {1}).Sublist (serializeRecord myFields myVal) ∧
    (serializeView myFields myVal {1}).map Prod.fst
      = ((List.finRange myFields.n).filter
          fun i => decide (i ∈ ({1} : Finset (Fin myFields.n)))).map myFields.names ∧
    ((serializeView myFields myVal {1}).map Prod.fst).toFinset
      = ({1} : Finset (Fin myFields.n)).image myFields.names :=
  filtered_doc_matches_selection myFields myVal {1} (by decide)

/-- C3: for every field variant `v`, `from_str (as_str v) = Ok(v)` — the
canonical name of a variant parses back exactly to that variant. -/
theorem from_str_as_str_roundtrip (E : FieldEnum) (hinj : Function.Injective E.names)
    (v : Fin E.n) : from_str E (as_str E v) = .ok v :=
  from_str_of_name E hinj rfl

/-- Witness for C3 at the test enumeration's `Flag` variant. -/
theorem from_str_as_str_roundtrip_witness :
    from_str myFields (as_str myFields 1) = .ok 1 :=
  from_str_as_str_roundtrip myFields (by decide) 1

/-- C4: `with_fields` and `add_fields` are atomic. When resolution fails,
both return the `UnknownField` error of the first unresolvable name and
produce no updated context at all (the prior selection is never partially
extended); on success `with_fields` replaces the selection wholesale with
the resolved set and `add_fields` unions the resolved set into the prior
selection, the resolved set being exactly the variants the inputs resolve
to. -/
theorem selection_update_atomic (E : FieldEnum) {V : Type} (ctx : ViewContext E V)
    (fs : List (FieldLike E)) :
    (∀ e, resolve_all fs = .error e →
        with_fields ctx fs = .error e ∧ add_fields ctx fs = .error e ∧
        ∃ l₁ f l₂ s, fs = l₁ ++ f :: l₂ ∧ (∀ g ∈ l₁, ∃ v, into_field g = .ok v) ∧
          into_field f = .error e ∧ e = .UnknownField s ∧ f = .name s) ∧
    (∀ s, resolve_all fs = .ok s →
        with_fields ctx fs = .ok { ctx with fields := s } ∧
        add_fields ctx fs = .ok { ctx with fields := ctx.fields ∪ s } ∧
        ∀ v, (v ∈ s ↔ ∃ f ∈ fs, into_field f = .ok v)) := by
  constructor
  · intro e he
    refine ⟨?_, ?_, ?_⟩
    · unfold with_fields
      rw [he, except_error_bind]
    · unfold add_fields
      rw [he, except_error_bind]
    · obtain ⟨l₁, f, l₂, hl, hf, hall⟩ := collectSet_error_decomp into_field fs e he
      rcases f with v | t
      · exact absurd hf (by simp [into_field])
      · have hshape : e = .UnknownField t := from_str_error_shape E hf
        exact ⟨l₁, .name t, l₂, t, hl, hall, hf, hshape, rfl⟩
  · intro s hs
    refine ⟨?_, ?_, collectSet_ok_mem into_field fs s hs⟩
    · unfold with_fields
      rw [hs, except_ok_bind]
      rfl
    · unfold add_fields
      rw [hs, except_ok_bind]
      rfl

/-- Witness for C4: a bad name fails both builders on a non-empty prior
selection, and a successful `add_fields` unions into the prior selection. -/
theorem selection_update_atomic_witness :
    with_fields myCtx [FieldLike.name "bogus"] = .error (.UnknownField "bogus") ∧
    add_fields myCtx [FieldLike.variant 1, FieldLike.name "flag"]
      = .ok { myCtx with fields := myCtx.fields ∪ {1} } :=
  ⟨((selection_update_atomic myFields myCtx [FieldLike.name "bogus"]).1
      (.UnknownField "bogus") (by decide)).1,
   ((selection_update_atomic myFields myCtx [FieldLike.variant 1, FieldLike.name "flag"]).2
      {1} (by decide)).2.1⟩

/-- C5: `from_str` fails with `UnknownField(s)` carrying the offending
string whenever `s` is not the canonical name of any variant, and succeeds
with the corresponding variant whenever `s` is a canonical name; matching is
exact string equality. -/
theorem from_str_exact_matching (E : FieldEnum) (hinj : Function.Injective E.names)
    (s : String) :
    ((∀ i, as_str E i ≠ s) → from_str E s = .error (.UnknownField s)) ∧
    (∀ i, as_str E i = s → from_str E s = .ok i) :=
  ⟨fun h => from_str_of_not_name E h, fun _ h => from_str_of_name E hinj h⟩

/-- Witness for C5: `"Flag"` (wrong case) fails carrying `"Flag"` itself,
while the exact name `"flag"` resolves. -/
theorem from_str_exact_matching_witness :
    from_str myFields "Flag" = .error (.UnknownField "Flag") ∧
      from_str myFields "flag" = .ok 1 :=
  ⟨(from_str_exact_matching myFields (by decide) "Flag").1 (by decide),
   (from_str_exact_matching myFields (by decide) "flag").2 1 (by decide)⟩

/-- C6: `from_str_iter` fails fast on the first unresolvable name, returning
that name's `UnknownField` error with all partial results discarded; when
every name resolves it returns the set of the resolved variants. -/
theorem from_str_iter_fail_fast (E : FieldEnum) :
    (∀ (l₁ l₂ : List String) (s : String) (e : Error),
        (∀ t ∈ l₁, ∃ v, from_str E t = .ok v) → from_str E s = .error e →
        from_str_iter E (l₁ ++ s :: l₂) = .error e ∧ e = .UnknownField s) ∧
    (∀ l : List String, (∀ t ∈ l, ∃ v, from_str E t = .ok v) →
        ∃ vs, from_str_iter E l = .ok vs ∧ ∀ v, (v ∈ vs ↔ ∃ s ∈ l, from_str E s = .ok v)) := by
  constructor
  · intro l₁ l₂ s e hall herr
    exact ⟨collectSet_append_error (from_str E) l₁ l₂ s e hall herr,
      from_str_error_shape E herr⟩
  · intro l hall
    exact collectSet_ok_of_all_ok (from_str E) l hall

/-- Witness for C6: `["flag", "bogus", "some_string"]` fails with the error
for `"bogus"`; `["flag", "some_string"]` resolves to a set. -/
theorem from_str_iter_fail_fast_witness :
    (from_str_iter myFields (["flag"] ++ "bogus" :: ["some_string"])
        = .error (.UnknownField "bogus") ∧
      Error.UnknownField "bogus" = .UnknownField "bogus") ∧
    ∃ vs, from_str_iter myFields ["flag", "some_string"] = .ok vs ∧
      ∀ v, (v ∈ vs ↔ ∃ s ∈ ["flag", "some_string"], from_str myFields s = .ok v) :=
  ⟨(from_str_iter_fail_fast myFields).1 ["flag"] ["some_string"] "bogus"
      (.UnknownField "bogus") (by decide) (by decide),
   (from_str_iter_fail_fast myFields).2 ["flag", "some_string"] (by decide)⟩

/-- C7: `from_str_split` on the empty string fails with `UnknownField("")`:
splitting `""` on the comma yields the single element `""`, which is not a
field name of any record whose field names are non-empty. -/
theorem from_str_split_empty_string (E : FieldEnum) (h : ∀ i, E.names i ≠ "") :
    from_str_split E "" = .error (.UnknownField "") := by
  unfold from_str_split
  rw [show str_split "" ',' = [""] from rfl]
  unfold from_str_iter
  simp only [collectSet]
  rw [from_str_of_not_name E h, except_error_bind]

/-- Witness for C7 at the test enumeration. -/
theorem from_str_split_empty_string_witness :
    from_str_split myFields "" = .error (.UnknownField "") :=
  from_str_split_empty_string myFields (by decide)

/-- C8: for a record with fields named `"a"` and `"b"`, `from_str_split`
of `"a,b"` and of `"b,a"` both yield the two-element set `{a, b}`, and the
selection produced by `with_fields` from the string names equals the one
produced by `with_fields` from the typed variants. -/
theorem from_str_split_two_fields (E : FieldEnum) {V : Type}
    (hinj : Function.Injective E.names) (a b : Fin E.n)
    (ha : E.names a = "a") (hb : E.names b = "b") (ctx : ViewContext E V) :
    from_str_split E "a,b" = .ok {a, b} ∧
    from_str_split E "b,a" = .ok {a, b} ∧
    a ≠ b ∧
    with_fields ctx [FieldLike.name "a", FieldLike.name "b"]
      = .ok { ctx with fields := {a, b} } ∧
    with_fields ctx [FieldLike.variant a, FieldLike.variant b]
      = .ok { ctx with fields := {a, b} } := by
  have hfa := from_str_of_name E hinj ha
  have hfb := from_str_of_name E hinj hb
  have hab : a ≠ b := by
    intro h
    rw [h, hb] at ha
    exact absurd ha (by decide)
  have hia : into_field (FieldLike.name (E := E) "a") = .ok a := hfa
  have hib : into_field (FieldLike.name (E := E) "b") = .ok b := hfb
  refine ⟨?_, ?_, hab, ?_, ?_⟩
  · unfold from_str_split
    rw [show str_split "a,b" ',' = ["a", "b"] from rfl]
    exact collectSet_pair (from_str E) hfa hfb
  · unfold from_str_split
    rw [show str_split "b,a" ',' = ["b", "a"] from rfl]
    rw [show ({a, b} : Finset (Fin E.n)) = {b, a} from Finset.pair_comm a b]
    exact collectSet_pair (from_str E) hfb hfa
  · unfold with_fields
    rw [show resolve_all [FieldLike.name (E := E) "a", FieldLike.name "b"]
        = .ok {a, b} from collectSet_pair into_field hia hib, except_ok_bind]
    rfl
  · unfold with_fields
    rw [show resolve_all [FieldLike.variant (E := E) a, FieldLike.variant b]
        = .ok {a, b} from collectSet_pair into_field rfl rfl, except_ok_bind]
    rfl

/-- Witness for C8 at a concrete two-field enumeration named `a`, `b`. -/
theorem from_str_split_two_fields_witness :
    from_str_split abFields "a,b" = .ok {0, 1} ∧
    from_str_split abFields "b,a" = .ok {0, 1} ∧
    (0 : Fin abFields.n) ≠ 1 ∧
    with_fields abCtx [FieldLike.name "a", FieldLike.name "b"]
      = .ok { abCtx with fields := {0, 1} } ∧
    with_fields abCtx [FieldLike.variant 0, FieldLike.variant 1]
      = .ok { abCtx with fields := {0, 1} } :=
  from_str_split_two_fields abFields (by decide) 0 1 (by decide) (by decide) abCtx

/-- C9: no operation mutates the wrapped record: `as_view` stores the record
unchanged, and every builder operation that returns a context returns it
with the same underlying record. -/
theorem record_never_mutated (E : FieldEnum) {V : Type} (val : Fin E.n → V) :
    (as_view val).inner = val ∧
    (∀ (ctx ctx' : ViewContext E V) (fs : List (FieldLike E)),
        with_fields ctx fs = .ok ctx' → ctx'.inner = ctx.inner) ∧
    (∀ (ctx ctx' : ViewContext E V) (fs : List (FieldLike E)),
        add_fields ctx fs = .ok ctx' → ctx'.inner = ctx.inner) ∧
    (∀ (ctx ctx' : ViewContext E V) (f : FieldLike E),
        add_field ctx f = .ok ctx' → ctx'.inner = ctx.inner) := by
  refine ⟨rfl, ?_, ?_, ?_⟩
  · intro ctx ctx' fs h
    unfold with_fields at h
    rcases hr : resolve_all fs with e | s
    · rw [hr, except_error_bind] at h
      exact absurd h (by simp)
    · rw [hr, except_ok_bind] at h
      have h2 : Except.ok { ctx with fields := s } = Except.ok ctx' := h
      injection h2 with h2
      rw [← h2]
  · intro ctx ctx' fs h
    unfold add_fields at h
    rcases hr : resolve_all fs with e | s
    · rw [hr, except_error_bind] at h
      exact absurd h (by simp)
    · rw [hr, except_ok_bind] at h
      have h2 : Except.ok { ctx with fields := ctx.fields ∪ s } = Except.ok ctx' := h
      injection h2 with h2
      rw [← h2]
  · intro ctx ctx' f h
    unfold add_field at h
    rcases hr : into_field f with e | v
    · rw [hr, except_error_bind] at h
      exact absurd h (by simp)
    · rw [hr, except_ok_bind] at h
      have h2 : Except.ok { ctx with fields := insert v ctx.fields } = Except.ok ctx' := h
      injection h2 with h2
      rw [← h2]

/-- Witness for C9 at a concrete record value and context. -/
theorem record_never_mutated_witness :
    (as_view myVal).inner = myVal ∧
      ({ myCtx with fields := (∅ : Finset (Fin myFields.n)) } :
          ViewContext myFields Nat).inner = myCtx.inner :=
  ⟨(record_never_mutated myFields myVal).1,
   (record_never_mutated myFields myVal).2.1 myCtx { myCtx with fields := ∅ } [] rfl⟩

/-- C10: `with_fields` with an empty iterable resets the selection to the
empty set, after which serialization emits every field; and, for a record
with at least one field, no successful `with_fields` yields a view that
serializes zero fields. -/
theorem with_fields_empty_selects_all (E : FieldEnum) {V : Type} (hn : 0 < E.n) :
    (∀ ctx : ViewContext E V,
        with_fields ctx ([] : List (FieldLike E)) = .ok { ctx with fields := ∅ } ∧
        serializeContext { ctx with fields := (∅ : Finset (Fin E.n)) }
          = serializeRecord E ctx.inner) ∧
    (∀ (ctx ctx' : ViewContext E V) (fs : List (FieldLike E)),
        with_fields ctx fs = .ok ctx' → serializeContext ctx' ≠ []) := by
  constructor
  · intro ctx
    exact ⟨rfl, serializeView_empty_eq E ctx.inner⟩
  · intro ctx ctx' fs _
    exact serializeView_ne_nil E ctx'.inner ctx'.fields hn

/-- Witness for C10 at the three-field test enumeration. -/
theorem with_fields_empty_selects_all_witness :
    (with_fields myCtx ([] : List (FieldLike myFields)) = .ok { myCtx with fields := ∅ } ∧
      serializeContext { myCtx with fields := (∅ : Finset (Fin myFields.n)) }
        = serializeRecord myFields myCtx.inner) ∧
    serializeContext { myCtx with fields := (∅ : Finset (Fin myFields.n)) } ≠ [] :=
  ⟨(with_fields_empty_selects_all myFields (by decide)).1 myCtx,
   (with_fields_empty_selects_all myFields (by decide)).2 myCtx
      { myCtx with fields := ∅ } [] rfl⟩

end SerdeView
